import Mathlib

/-!
# A verification development for the swisher object-storage server

Shallow embedding of the core of the repository: the versioned on-disk
object store (`src/dir.rs`), the temp-file machinery (`src/temp.rs`),
the streaming codec pipeline (`src/hyper_files.rs`), the master-key /
access-key scheme (`src/users.rs`), bucket-name validation
(`src/bucket.rs`) and the AWS SigV4 validator (`src/sig.rs`).

Rust strings are modelled at the byte level (`List Nat`, each element a
`u8` value) except where the source manipulates `char`s, where
`List Char` is used.  External crates (the `md5`/`sha2`/`hmac` digests,
the zstd encoder and decoder) are modelled as abstract parameters with
exactly the interface shape the source relies on; the encodings the
source depends on structurally (`base64`, `data_encoding`'s
`BASE32_DNSSEC`) are implemented concretely.
-/

namespace Swisher

/-! ## Byte-level base64 (the `base64` crate)

`src/users.rs` uses `base64::encode_config(.., URL_SAFE_NO_PAD)` /
`decode_config`; `src/dir.rs` and `src/hyper_files.rs` use
`base64::encode` (standard alphabet, padded).  Bytes in, bytes out. -/

/-- URL-safe base64 symbol for a 6-bit value (RFC 4648 §5 alphabet),
as the byte value of the symbol character. -/
def b64uSym (v : Nat) : Nat :=
  if v < 26 then v + 65        -- 'A'..'Z'
  else if v < 52 then v + 71   -- 'a'..'z'
  else if v < 62 then v - 4    -- '0'..'9'
  else if v = 62 then 45       -- '-'
  else 95                      -- '_'

/-- Inverse symbol lookup for the URL-safe alphabet; `none` on a byte
that is not a symbol of the alphabet. -/
def b64uVal (b : Nat) : Option Nat :=
  if 65 ≤ b ∧ b ≤ 90 then some (b - 65)
  else if 97 ≤ b ∧ b ≤ 122 then some (b - 71)
  else if 48 ≤ b ∧ b ≤ 57 then some (b + 4)
  else if b = 45 then some 62
  else if b = 95 then some 63
  else none

/-- Rust `base64::encode_config(values, URL_SAFE_NO_PAD)`: unpadded URL-safe
base64 over a byte string. -/
def b64uEncode : List Nat → List Nat
  | a :: b :: c :: rest =>
      b64uSym (a / 4) :: b64uSym (a % 4 * 16 + b / 16) ::
      b64uSym (b % 16 * 4 + c / 64) :: b64uSym (c % 64) :: b64uEncode rest
  | [a, b] => [b64uSym (a / 4), b64uSym (a % 4 * 16 + b / 16), b64uSym (b % 16 * 4)]
  | [a] => [b64uSym (a / 4), b64uSym (a % 4 * 16)]
  | [] => []

/-- Rust `base64::decode_config(value, URL_SAFE_NO_PAD)`: rejects bytes
outside the alphabet, an input length of `4k+1`, and non-zero trailing
bits in a final partial group. -/
def b64uDecode : List Nat → Option (List Nat)
  | a :: b :: c :: d :: rest =>
      match b64uVal a, b64uVal b, b64uVal c, b64uVal d, b64uDecode rest with
      | some va, some vb, some vc, some vd, some tail =>
          some ((va * 4 + vb / 16) :: (vb % 16 * 16 + vc / 4) :: (vc % 4 * 64 + vd) :: tail)
      | _, _, _, _, _ => none
  | [a, b, c] =>
      match b64uVal a, b64uVal b, b64uVal c with
      | some va, some vb, some vc =>
          if vc % 4 = 0 then some [va * 4 + vb / 16, vb % 16 * 16 + vc / 4] else none
      | _, _, _ => none
  | [a, b] =>
      match b64uVal a, b64uVal b with
      | some va, some vb => if vb % 16 = 0 then some [va * 4 + vb / 16] else none
      | _, _ => none
  | [_] => none
  | [] => some []

/-- Standard base64 symbol for a 6-bit value (RFC 4648 §4 alphabet). -/
def b64sSym (v : Nat) : Nat :=
  if v < 26 then v + 65
  else if v < 52 then v + 71
  else if v < 62 then v - 4
  else if v = 62 then 43       -- '+'
  else 47                      -- '/'

/-- Rust `base64::encode`: standard alphabet, `'='`-padded. -/
def b64sEncode : List Nat → List Nat
  | a :: b :: c :: rest =>
      b64sSym (a / 4) :: b64sSym (a % 4 * 16 + b / 16) ::
      b64sSym (b % 16 * 4 + c / 64) :: b64sSym (c % 64) :: b64sEncode rest
  | [a, b] => [b64sSym (a / 4), b64sSym (a % 4 * 16 + b / 16), b64sSym (b % 16 * 4), 61]
  | [a] => [b64sSym (a / 4), b64sSym (a % 4 * 16), 61, 61]
  | [] => []

theorem b64uVal_b64uSym : ∀ v < 64, b64uVal (b64uSym v) = some v := by decide

/-- Length of an unpadded URL-safe encoding of a byte string whose
length is a multiple of three. -/
theorem b64uEncode_length_of_three {k : Nat} :
    ∀ l : List Nat, l.length = 3 * k → (b64uEncode l).length = 4 * k := by
  induction k with
  | zero =>
      intro l hl
      simp only [Nat.mul_zero, List.length_eq_zero] at hl
      subst hl
      rfl
  | succ k ih =>
      intro l hl
      match l with
      | a :: b :: c :: rest =>
          simp only [List.length_cons] at hl
          have hr : rest.length = 3 * k := by omega
          simp only [b64uEncode, List.length_cons, ih rest hr]
          omega

/-- Decoding inverts encoding on byte strings (values `< 256`) whose
length is a multiple of three. -/
theorem b64uDecode_b64uEncode {k : Nat} :
    ∀ l : List Nat, l.length = 3 * k → (∀ b ∈ l, b < 256) →
      b64uDecode (b64uEncode l) = some l := by
  induction k with
  | zero =>
      intro l hl _
      simp only [Nat.mul_zero, List.length_eq_zero] at hl
      subst hl
      decide
  | succ k ih =>
      intro l hl hb
      match l with
      | a :: b :: c :: rest =>
          simp only [List.length_cons] at hl
          have hr : rest.length = 3 * k := by omega
          have ha : a < 256 := hb a (by simp)
          have hbb : b < 256 := hb b (by simp)
          have hc : c < 256 := hb c (by simp)
          have hrest : ∀ x ∈ rest, x < 256 := fun x hx => hb x (by simp [hx])
          have h1 : a / 4 < 64 := by omega
          have h2 : a % 4 * 16 + b / 16 < 64 := by omega
          have h3 : b % 16 * 4 + c / 64 < 64 := by omega
          have h4 : c % 64 < 64 := by omega
          simp only [b64uEncode, b64uDecode, b64uVal_b64uSym _ h1, b64uVal_b64uSym _ h2,
            b64uVal_b64uSym _ h3, b64uVal_b64uSym _ h4, ih rest hr hrest]
          have e1 : a / 4 * 4 + (a % 4 * 16 + b / 16) / 16 = a := by omega
          have e2 : (a % 4 * 16 + b / 16) % 16 * 16 + (b % 16 * 4 + c / 64) / 4 = b := by
            omega
          have e3 : (b % 16 * 4 + c / 64) % 4 * 64 + c % 64 = c := by omega
          simp [e1, e2, e3]

/-- Every successful `URL_SAFE_NO_PAD` decode of an input of length
`4k` produces exactly `3k` bytes. -/
theorem b64uDecode_length_of_four {k : Nat} :
    ∀ s l : List Nat, s.length = 4 * k → b64uDecode s = some l →
      l.length = 3 * k := by
  induction k with
  | zero =>
      intro s l hs hd
      simp only [Nat.mul_zero, List.length_eq_zero] at hs
      subst hs
      simp only [b64uDecode, Option.some.injEq] at hd
      subst hd
      rfl
  | succ k ih =>
      intro s l hs hd
      match s with
      | a :: b :: c :: d :: rest =>
          simp only [List.length_cons] at hs
          have hr : rest.length = 4 * k := by omega
          simp only [b64uDecode] at hd
          cases hva : b64uVal a <;> rw [hva] at hd <;>
            [skip; cases hvb : b64uVal b] <;> try rw [hvb] at hd
          case none => simp at hd
          case some.none => simp at hd
          case some.some va vb =>
            cases hvc : b64uVal c <;> rw [hvc] at hd <;>
              [skip; cases hvd : b64uVal d] <;> try rw [hvd] at hd
            case none => simp at hd
            case some.none => simp at hd
            case some.some vc vd =>
              cases htail : b64uDecode rest <;> rw [htail] at hd
              case none => simp at hd
              case some tail =>
                simp only [Option.some.injEq] at hd
                subst hd
                simp only [List.length_cons, ih rest tail hr htail]
                omega

/-! ## `src/users.rs`: the master key and access-key scheme

Rust strings appear here as their UTF-8 byte lists.  The digest
`hmac::Hmac<sha2::Sha512Trunc256>` (the `mac` helper, an external
crate) is abstracted as a function parameter producing 32-byte
outputs. -/

/-- The UTF-8 bytes of an ASCII string literal (all string constants
fed to `mac` in the source are ASCII). -/
def asciiBytes (s : String) : List Nat := s.data.map Char.toNat

/-- Rust `MasterKey { id: [u8; 3], key: [u8; 32] }`. -/
structure MasterKey where
  id : List Nat
  key : List Nat

/-- Rust `pack`: `base64::encode_config(values, URL_SAFE_NO_PAD)`. -/
def pack (values : List Nat) : List Nat := b64uEncode values

/-- Rust `unpack`: `base64::decode_config(value, URL_SAFE_NO_PAD).ok()`. -/
def unpack (value : List Nat) : Option (List Nat) := b64uDecode value

/-- Rust `ACCESS_KEY_LEN`. -/
def ACCESS_KEY_LEN : Nat := 30

/-- Rust `MasterKey::new(from)`, with the external `mac` digest
(`Hmac<Sha512Trunc256>`, always 32 output bytes) as a parameter. -/
def MasterKey.new (mac : List Nat → List Nat → List Nat) (from_ : List Nat) :
    MasterKey :=
  let key := mac (asciiBytes "making a key") from_
  { key := key, id := (mac (asciiBytes "identifying a key") key).take 3 }

/-- Rust `MasterKey::access_key_for(role_id)`: `"S1"` (bytes `83, 49`)
followed by the unpadded URL-safe base64 of
`id || role_id || entropy`, where `entropy` stands for the six bytes
of `rand::random::<u64>().to_le_bytes()[..6]`. -/
def MasterKey.access_key_for (self : MasterKey) (role_id : List Nat)
    (entropy : List Nat) : List Nat :=
  83 :: 49 :: pack (self.id ++ role_id ++ entropy)

/-- Checked slice `l[i..j]`; `none` models the Rust panic on an
out-of-bounds range. -/
def sliceRange (l : List Nat) (i j : Nat) : Option (List Nat) :=
  if j ≤ l.length ∧ i ≤ j then some ((l.drop i).take (j - i)) else none

/-- Rust `MasterKey::parse_access(key)`.  The outer `Option` models panic
freedom: `none` would mean one of the fixed slices `key[..3]` /
`key[3..15]` (or the `try_into().expect`) panicked. -/
def MasterKey.parse_access (self : MasterKey) (key : List Nat) :
    Option (Except String (List Nat)) :=
  if key.length ≠ ACCESS_KEY_LEN then some (Except.error "invalid length")
  else if ¬ ([83, 49] <+: key) then some (Except.error "invalid format / version")
  else
    (unpack (key.drop 2)).elim (some (Except.error "invalid encoding")) fun decoded =>
      (sliceRange decoded 0 3).elim none fun prefix3 =>
        if prefix3 ≠ self.id then some (Except.error "not issued by us")
        else (sliceRange decoded 3 15).elim none fun role => some (Except.ok role)

/-- Rust `MasterKey::secret_key_for(access_key)`:
`pack(mac(self.key, access_key))`. -/
def MasterKey.secret_key_for (mac : List Nat → List Nat → List Nat)
    (self : MasterKey) (access_key : List Nat) : List Nat :=
  pack (mac self.key access_key)

/-- C3: round-tripping an issued access key through `parse_access`
recovers the role id, for every master key derivable from a seed, every
12-byte role id and every value of the 6 entropy bytes. -/
theorem access_key_roundtrip
    (mac : List Nat → List Nat → List Nat)
    (hlen : ∀ k v, (mac k v).length = 32)
    (hbyte : ∀ k v, ∀ b ∈ mac k v, b < 256)
    (seed role entropy : List Nat)
    (hrole : role.length = 12) (hroleb : ∀ b ∈ role, b < 256)
    (hent : entropy.length = 6) (hentb : ∀ b ∈ entropy, b < 256) :
    (MasterKey.new mac seed).parse_access
      ((MasterKey.new mac seed).access_key_for role entropy) =
      some (.ok role) := by
  set mk := MasterKey.new mac seed with hmk
  have hid : mk.id = (mac (asciiBytes "identifying a key")
      (mac (asciiBytes "making a key") seed)).take 3 := rfl
  have hidlen : mk.id.length = 3 := by
    rw [hid, List.length_take, hlen]
    decide
  have hidb : ∀ b ∈ mk.id, b < 256 := by
    intro b hb
    exact hbyte _ _ b (List.mem_of_mem_take hb)
  set payload := mk.id ++ role ++ entropy with hpay
  have hplen : payload.length = 3 * 7 := by
    simp only [hpay, List.length_append, hidlen, hrole, hent]
  have hpb : ∀ b ∈ payload, b < 256 := by
    intro b hb
    simp only [hpay, List.mem_append] at hb
    rcases hb with hb | hb
    · rcases hb with hb | hb
      · exact hidb b hb
      · exact hroleb b hb
    · exact hentb b hb
  have henc : (b64uEncode payload).length = 4 * 7 :=
    b64uEncode_length_of_three payload hplen
  have hdec : b64uDecode (b64uEncode payload) = some payload :=
    b64uDecode_b64uEncode payload hplen hpb
  show MasterKey.parse_access mk (83 :: 49 :: pack payload) = some (Except.ok role)
  have hklen : (83 :: 49 :: pack payload).length = ACCESS_KEY_LEN := by
    simp only [List.length_cons, pack, henc, ACCESS_KEY_LEN]
  have hpre : [83, 49] <+: (83 :: 49 :: pack payload) := ⟨pack payload, rfl⟩
  have hdrop : (83 :: 49 :: pack payload).drop 2 = pack payload := rfl
  have hs03 : sliceRange payload 0 3 = some mk.id := by
    rw [sliceRange, if_pos (by omega)]
    simp only [List.drop_zero, Option.some.injEq, hpay]
    rw [List.append_assoc, List.take_append_of_le_length (by omega),
      List.take_of_length_le (by omega)]
  have hs315 : sliceRange payload 3 15 = some role := by
    rw [sliceRange, if_pos (by omega)]
    simp only [Option.some.injEq, hpay]
    rw [List.append_assoc, List.drop_append_of_le_length (by omega),
      List.drop_of_length_le (by omega), List.nil_append,
      List.take_append_of_le_length (by omega),
      List.take_of_length_le (by omega)]
  rw [MasterKey.parse_access, if_neg (by rw [hklen]; exact fun h => h rfl),
    if_neg (by simp [hpre]), hdrop]
  rw [show unpack (pack payload) = some payload from hdec]
  simp only [Option.elim, hs03, hs315]
  rw [if_neg (by simp)]

/-- Witness: the round-trip theorem instantiated at a concrete digest
function, seed, role id and entropy. -/
theorem access_key_roundtrip_witness :
    (MasterKey.new (fun _ _ => List.replicate 32 7) []).parse_access
      ((MasterKey.new (fun _ _ => List.replicate 32 7) []).access_key_for
        [1, 2, 3, 4, 5, 6, 1, 2, 3, 4, 5, 6] [9, 8, 7, 6, 5, 4]) =
      some (.ok [1, 2, 3, 4, 5, 6, 1, 2, 3, 4, 5, 6]) :=
  access_key_roundtrip (fun _ _ => List.replicate 32 7)
    (fun _ _ => List.length_replicate 32 7)
    (fun _ _ b hb => by rw [List.eq_of_mem_replicate hb]; omega)
    [] _ _ rfl (by decide) rfl (by decide)

/-- The `pack`/`unpack` pair agrees with the vectors of the
`key_derivation` test in `src/users.rs`. -/
example : pack [187, 84, 139] = asciiBytes "u1SL" := by decide

example : unpack (asciiBytes "u1SL") = some [187, 84, 139] := by decide

/-- C10: `parse_access` is total — for every master key and every input
byte string it returns a value (it never reaches a panicking slice),
and a 30-byte key starting with `"S1"` whose remainder is not valid
URL-safe no-pad base64 is rejected with the `"invalid encoding"`
error. -/
theorem parse_access_total :
    (∀ (mk : MasterKey) (key : List Nat), ∃ r, mk.parse_access key = some r) ∧
    MasterKey.parse_access ⟨[0, 0, 0], []⟩ (83 :: 49 :: List.replicate 28 33) =
      some (.error "invalid encoding") := by
  constructor
  · intro mk key
    rw [MasterKey.parse_access]
    by_cases hlen : key.length ≠ ACCESS_KEY_LEN
    · exact ⟨_, by rw [if_pos hlen]⟩
    rw [if_neg hlen]
    by_cases hpre : ¬ ([83, 49] <+: key)
    · exact ⟨_, by rw [if_pos hpre]⟩
    rw [if_neg hpre]
    cases hdec : unpack (key.drop 2) with
    | none => exact ⟨_, rfl⟩
    | some decoded =>
        have hd28 : (key.drop 2).length = 4 * 7 := by
          simp only [List.length_drop]
          simp only [ne_eq, not_not, ACCESS_KEY_LEN] at hlen
          omega
        have hd21 : decoded.length = 3 * 7 :=
          b64uDecode_length_of_four (key.drop 2) decoded hd28 hdec
        have hs3 : sliceRange decoded 0 3 =
            some ((decoded.drop 0).take (3 - 0)) := by
          rw [sliceRange, if_pos (by omega)]
        have hs15 : sliceRange decoded 3 15 =
            some ((decoded.drop 3).take (15 - 3)) := by
          rw [sliceRange, if_pos (by omega)]
        by_cases hid : (decoded.drop 0).take (3 - 0) ≠ mk.id
        · exact ⟨_, by simp only [Option.elim, hs3]; rw [if_pos hid]⟩
        · exact ⟨_, by simp only [Option.elim, hs3, hs15]; rw [if_neg hid]⟩
  · rfl

/-! ## `src/bucket.rs`: bucket-name validation

`valid_bucket_name` works on a Rust `&str`: `name.len()` is the UTF-8
byte length, `name.chars()` the characters.  The name is modelled as
its character list; the byte length is recovered as the sum of the
characters' UTF-8 sizes. -/

/-- Rust `alnum(c)`: `c.is_ascii_lowercase() || c.is_ascii_digit()`. -/
def alnum (c : Char) : Bool := c.isLower || c.isDigit

/-- Rust `name.len()` of a Rust `&str`, on its character list. -/
def utf8Len (cs : List Char) : Nat := (cs.map Char.utf8Size).sum

/-- Rust `name.starts_with(|c| alnum(c))`. -/
def startsWithAlnum : List Char → Bool
  | c :: _ => alnum c
  | [] => false

/-- Rust `name.ends_with(|c| alnum(c))`. -/
def endsWithAlnum (l : List Char) : Bool := (l.getLast?.map alnum).getD false

/-- Rust `name.contains("..")`: two adjacent dots somewhere in the
character list (the pattern is ASCII, so character-level and
byte-level substring search agree). -/
def hasDoubleDot : List Char → Bool
  | a :: b :: rest => (a = '.' && b = '.') || hasDoubleDot (b :: rest)
  | _ => false

/-- Rust `valid_bucket_name` (src/bucket.rs:69). -/
def valid_bucket_name (name : List Char) : Bool :=
  if utf8Len name < 3 || utf8Len name > 63 then false
  else if !startsWithAlnum name || !endsWithAlnum name then false
  else if !(name.all fun c => alnum c || c = '.' || c = '-') then false
  else if hasDoubleDot name then false
  else true

/-- The bucket-name rule as the specification states it: character
count in `[3, 63]`, alphanumeric first and last characters, every
character lowercase-alphanumeric, dot or hyphen, and no `".."`
substring. -/
def bucketNameSpec (name : List Char) : Prop :=
  3 ≤ name.length ∧ name.length ≤ 63 ∧
  (∃ c, name.head? = some c ∧ alnum c) ∧
  (∃ c, name.getLast? = some c ∧ alnum c) ∧
  (∀ c ∈ name, alnum c ∨ c = '.' ∨ c = '-') ∧
  ¬ ['.', '.'] <:+: name

theorem utf8Size_eq_one_of_bucket_char (c : Char)
    (h : alnum c ∨ c = '.' ∨ c = '-') : c.utf8Size = 1 := by
  have hv : c.val ≤ 0x7F := by
    rcases h with h | h | h
    · simp only [alnum, Char.isLower, Char.isDigit, Bool.or_eq_true,
        Bool.and_eq_true, decide_eq_true_eq] at h
      rcases h with ⟨_, h2⟩ | ⟨_, h2⟩ <;> exact UInt32.le_trans h2 (by decide)
    · subst h; decide
    · subst h; decide
  rw [Char.utf8Size]
  simp [hv]

theorem hasDoubleDot_iff_infix :
    ∀ l : List Char, hasDoubleDot l = true ↔ ['.', '.'] <:+: l := by
  intro l
  induction l with
  | nil =>
      simp only [hasDoubleDot, Bool.false_eq_true, false_iff]
      intro h
      simpa using h.length_le
  | cons a rest ih =>
      cases rest with
      | nil =>
          simp only [hasDoubleDot, Bool.false_eq_true, false_iff]
          intro h
          simpa using h.length_le
      | cons b t =>
          rw [hasDoubleDot, List.infix_cons_iff]
          simp only [Bool.or_eq_true, Bool.and_eq_true, decide_eq_true_eq, ih,
            List.cons_prefix_cons, List.nil_prefix, and_true]
          constructor
          · rintro (⟨ha, hb⟩ | h)
            · exact Or.inl ⟨ha.symm, hb.symm⟩
            · exact Or.inr h
          · rintro (⟨ha, hb⟩ | h)
            · exact Or.inl ⟨ha.symm, hb.symm⟩
            · exact Or.inr h

/-- C8: `valid_bucket_name` accepts exactly the names the
specification's bucket-name rule describes. -/
theorem valid_bucket_name_iff (name : List Char) :
    valid_bucket_name name = true ↔ bucketNameSpec name := by
  constructor
  · intro h
    rw [valid_bucket_name] at h
    by_cases h1 : utf8Len name < 3 || utf8Len name > 63
    · rw [if_pos h1] at h; exact absurd h (by simp)
    rw [if_neg h1] at h
    by_cases h2 : !startsWithAlnum name || !endsWithAlnum name
    · rw [if_pos h2] at h; exact absurd h (by simp)
    rw [if_neg h2] at h
    by_cases h3 : !(name.all fun c => alnum c || c = '.' || c = '-')
    · rw [if_pos h3] at h; exact absurd h (by simp)
    rw [if_neg h3] at h
    by_cases h4 : hasDoubleDot name
    · rw [if_pos h4] at h; exact absurd h (by simp)
    simp only [Bool.not_eq_true, Bool.or_eq_false_iff, Bool.not_eq_false'] at h2 h3
    have hall : ∀ c ∈ name, alnum c ∨ c = '.' ∨ c = '-' := by
      intro c hc
      have := (List.all_eq_true.mp h3) c hc
      simpa [or_assoc] using this
    have hlen : utf8Len name = name.length := by
      rw [utf8Len,
        List.map_congr_left fun c hc => utf8Size_eq_one_of_bucket_char c (hall c hc)]
      simp
    simp only [Bool.not_eq_true, Bool.or_eq_false_iff, decide_eq_false_iff_not,
      not_lt] at h1
    refine ⟨by omega, by omega, ?_, ?_, hall, ?_⟩
    · cases name with
      | nil => exact absurd h2.1 (by simp [startsWithAlnum])
      | cons c rest => exact ⟨c, rfl, by simpa [startsWithAlnum] using h2.1⟩
    · have := h2.2
      rw [endsWithAlnum] at this
      cases hg : name.getLast? with
      | none => rw [hg] at this; simp at this
      | some c =>
          rw [hg] at this
          exact ⟨c, rfl, by simpa using this⟩
    · intro hin
      rw [← hasDoubleDot_iff_infix] at hin
      exact absurd hin (by simpa using h4)
  · rintro ⟨hl3, hl63, ⟨cf, hcf, hcfa⟩, ⟨cl, hcl, hcla⟩, hall, hdd⟩
    have hlen : utf8Len name = name.length := by
      rw [utf8Len,
        List.map_congr_left fun c hc => utf8Size_eq_one_of_bucket_char c (hall c hc)]
      simp
    have c1 : (utf8Len name < 3 || utf8Len name > 63) = false := by
      simp only [Bool.or_eq_false_iff, decide_eq_false_iff_not, not_lt, hlen]
      omega
    have c2 : (!startsWithAlnum name || !endsWithAlnum name) = false := by
      simp only [Bool.or_eq_false_iff, Bool.not_eq_false']
      constructor
      · cases name with
        | nil => simp at hcf
        | cons c rest =>
            simp only [List.head?_cons, Option.some.injEq] at hcf
            subst hcf
            exact hcfa
      · rw [endsWithAlnum, hcl]
        simpa using hcla
    have c3 : (!(name.all fun c => alnum c || c = '.' || c = '-')) = false := by
      simp only [Bool.not_eq_false']
      rw [List.all_eq_true]
      intro c hc
      simpa [or_assoc] using hall c hc
    have c4 : hasDoubleDot name = false := by
      rw [← Bool.not_eq_true, hasDoubleDot_iff_infix]
      exact hdd
    simp [valid_bucket_name, c1, c2, c3, c4]

/-- Rust `valid_bucket_name` agrees with the `naming` test in
`src/bucket.rs`. -/
example : valid_bucket_name "hello".data = true := by decide

example : valid_bucket_name "he".data = false := by decide

example : valid_bucket_name "789".data = true := by decide

example : valid_bucket_name ".lol".data = false := by decide

example : valid_bucket_name "lol.".data = false := by decide

example : valid_bucket_name "lol..ponies".data = false := by decide

example : valid_bucket_name "lol.ponies".data = true := by decide

example : valid_bucket_name "xn--wow-ee".data = true := by decide

/-! ## `src/dir.rs`: the key hash

`PackedKey::from` hashes the key with `sha2::Sha512` (an external
crate, abstracted as a function producing 64-byte outputs) and encodes
the digest with `data_encoding::BASE32_DNSSEC`: extended-hex base32,
lowercase, no padding, implemented here bit by bit. -/

/-- The `BASE32_DNSSEC` symbol table: extended hex, lowercase. -/
def base32Alphabet : List Char := "0123456789abcdefghijklmnopqrstuv".data

/-- The eight bits of a byte, most significant first. -/
def byteBitsBE (b : Nat) : List Nat :=
  [b / 128 % 2, b / 64 % 2, b / 32 % 2, b / 16 % 2,
   b / 8 % 2, b / 4 % 2, b / 2 % 2, b % 2]

/-- Value of a big-endian bit string. -/
def bitsVal (l : List Nat) : Nat := l.foldl (fun a b => 2 * a + b) 0

/-- Split a bit stream into groups of five (the final group may be
shorter). -/
def chunk5 : List Nat → List (List Nat)
  | [] => []
  | a :: rest => (a :: rest.take 4) :: chunk5 (rest.drop 4)
termination_by l => l.length
decreasing_by simp only [List.length_cons, List.length_drop]; omega

/-- Symbol value of a (possibly short, zero-bit-padded) final group. -/
def groupVal (g : List Nat) : Nat := bitsVal g * 2 ^ (5 - g.length)

/-- Rust `BASE32_DNSSEC.encode`. -/
def base32DnssecEncode (bytes : List Nat) : List Char :=
  (chunk5 ((bytes.map byteBitsBE).flatten)).map fun g =>
    base32Alphabet.getD (groupVal g) '?'

/-- Rust `PackedKey::from` (src/dir.rs:159), with the external `Sha512`
digest as a parameter. -/
def PackedKey.from (sha : List Nat → List Nat) (name : List Nat) : List Char :=
  base32DnssecEncode (sha name)

/-- Rust `PackedKey::as_path` (src/dir.rs:172): `root/h[0..4]/h[4..8]/h[8..]`. -/
def PackedKey.as_path (root : List String) (pk : List Char) : List String :=
  root ++ [String.mk (pk.take 4), String.mk ((pk.drop 4).take 4),
    String.mk (pk.drop 8)]

theorem chunk5_length_le :
    ∀ (n : Nat) (l : List Nat), l.length ≤ n →
      (chunk5 l).length = (l.length + 4) / 5 := by
  intro n
  induction n with
  | zero =>
      intro l hl
      have : l = [] := List.eq_nil_of_length_eq_zero (by omega)
      subst this
      simp [chunk5]
  | succ n ih =>
      intro l hl
      cases l with
      | nil => simp [chunk5]
      | cons a rest =>
          rw [chunk5]
          simp only [List.length_cons] at hl ⊢
          rw [ih (rest.drop 4) (by rw [List.length_drop]; omega),
            List.length_drop]
          omega

theorem chunk5_mem_le_five :
    ∀ (n : Nat) (l : List Nat), l.length ≤ n →
      ∀ g ∈ chunk5 l, g.length ≤ 5 ∧ ∀ b ∈ g, b ∈ l := by
  intro n
  induction n with
  | zero =>
      intro l hl g hg
      have : l = [] := List.eq_nil_of_length_eq_zero (by omega)
      subst this
      simp [chunk5] at hg
  | succ n ih =>
      intro l hl g hg
      cases l with
      | nil => simp [chunk5] at hg
      | cons a rest =>
          rw [chunk5] at hg
          simp only [List.length_cons] at hl
          rcases List.mem_cons.mp hg with hg | hg
          · subst hg
            constructor
            · simp only [List.length_cons, List.length_take]
              omega
            · intro b hb
              rcases List.mem_cons.mp hb with hb | hb
              · simp [hb]
              · exact List.mem_cons_of_mem a (List.mem_of_mem_take hb)
          · obtain ⟨h5, hmem⟩ :=
              ih (rest.drop 4) (by rw [List.length_drop]; omega) g hg
            exact ⟨h5, fun b hb =>
              List.mem_cons_of_mem a (List.mem_of_mem_drop (hmem b hb))⟩

theorem bitsVal_foldl_lt (g : List Nat) :
    ∀ acc, (∀ b ∈ g, b ≤ 1) →
      g.foldl (fun a b => 2 * a + b) acc < (acc + 1) * 2 ^ g.length := by
  induction g with
  | nil => intro acc _; simp
  | cons b t ih =>
      intro acc hb
      simp only [List.foldl_cons, List.length_cons]
      have hb1 : b ≤ 1 := hb b (by simp)
      have ht : ∀ x ∈ t, x ≤ 1 := fun x hx => hb x (by simp [hx])
      calc t.foldl (fun a b => 2 * a + b) (2 * acc + b)
      _ < (2 * acc + b + 1) * 2 ^ t.length := ih (2 * acc + b) ht
      _ ≤ (acc + 1) * 2 ^ (t.length + 1) := by ring_nf; nlinarith [Nat.pos_pow_of_pos t.length (show 0 < 2 by omega)]

theorem groupVal_lt_32 (g : List Nat) (h5 : g.length ≤ 5)
    (hb : ∀ b ∈ g, b ≤ 1) : groupVal g < 32 := by
  have h2 : bitsVal g < 2 ^ g.length := by
    simpa [bitsVal] using bitsVal_foldl_lt g 0 hb
  rw [groupVal]
  calc bitsVal g * 2 ^ (5 - g.length)
  _ < 2 ^ g.length * 2 ^ (5 - g.length) :=
      (Nat.mul_lt_mul_right (Nat.two_pow_pos _)).mpr h2
  _ = 2 ^ (g.length + (5 - g.length)) := by rw [Nat.pow_add]
  _ ≤ 2 ^ 5 := Nat.pow_le_pow_right (by omega) (by omega)

theorem flatten_map_byteBitsBE_length (bytes : List Nat) :
    ((bytes.map byteBitsBE).flatten).length = 8 * bytes.length := by
  induction bytes with
  | nil => rfl
  | cons b t ih =>
      simp only [List.map_cons, List.flatten_cons, List.length_append, ih,
        List.length_cons]
      rw [show (byteBitsBE b).length = 8 from rfl]
      ring

theorem flatten_map_byteBitsBE_le_one (bytes : List Nat) :
    ∀ b ∈ (bytes.map byteBitsBE).flatten, b ≤ 1 := by
  intro b hb
  rw [List.mem_flatten] at hb
  obtain ⟨l, hl, hbl⟩ := hb
  rw [List.mem_map] at hl
  obtain ⟨x, _, hx⟩ := hl
  subst hx
  simp only [byteBitsBE, List.mem_cons, List.not_mem_nil, or_false] at hbl
  rcases hbl with h | h | h | h | h | h | h | h <;> subst h <;> omega

theorem base32Alphabet_getD_range :
    ∀ v < 32, ('0' ≤ base32Alphabet.getD v '?' ∧ base32Alphabet.getD v '?' ≤ '9') ∨
      ('a' ≤ base32Alphabet.getD v '?' ∧ base32Alphabet.getD v '?' ≤ 'v') := by
  decide

/-- C7: the key hash is exactly 103 characters, all of them in
`[0-9a-v]`, so the length assertion in `PackedKey::from` holds and the
path slices at 4 and 8 in `as_path` are in bounds. -/
theorem packed_key_shape (sha : List Nat → List Nat)
    (hsha : ∀ nm, (sha nm).length = 64) (name : List Nat) :
    (PackedKey.from sha name).length = 103 ∧
    (∀ c ∈ PackedKey.from sha name,
      ('0' ≤ c ∧ c ≤ '9') ∨ ('a' ≤ c ∧ c ≤ 'v')) ∧
    8 ≤ (PackedKey.from sha name).length := by
  have hbits : (((sha name).map byteBitsBE).flatten).length = 512 := by
    rw [flatten_map_byteBitsBE_length, hsha]
  have hlen : (PackedKey.from sha name).length = 103 := by
    rw [PackedKey.from, base32DnssecEncode, List.length_map,
      chunk5_length_le _ _ (le_refl _), hbits]
  refine ⟨hlen, ?_, by omega⟩
  intro c hc
  rw [PackedKey.from, base32DnssecEncode, List.mem_map] at hc
  obtain ⟨g, hg, hgc⟩ := hc
  obtain ⟨h5, hmem⟩ := chunk5_mem_le_five _ _ (le_refl _) g hg
  have hb1 : ∀ b ∈ g, b ≤ 1 := fun b hb =>
    flatten_map_byteBitsBE_le_one (sha name) b (hmem b hb)
  subst hgc
  exact base32Alphabet_getD_range (groupVal g) (groupVal_lt_32 g h5 hb1)

/-- Witness: `packed_key_shape` at a concrete 64-byte digest
function. -/
theorem packed_key_shape_witness :
    (PackedKey.from (fun _ => List.replicate 64 0) []).length = 103 ∧
    (∀ c ∈ PackedKey.from (fun _ => List.replicate 64 0) [],
      ('0' ≤ c ∧ c ≤ '9') ∨ ('a' ≤ c ∧ c ≤ 'v')) ∧
    8 ≤ (PackedKey.from (fun _ => List.replicate 64 0) []).length :=
  packed_key_shape (fun _ => List.replicate 64 0)
    (fun _ => List.length_replicate 64 0) []

/-! ## `src/dir.rs`: `write_new_version`

`write_new_version` (src/dir.rs:48) is modelled as the sequence of
filesystem mutations it performs for one key, in program order:
write the serialized metadata into a fresh temp file, rename the blob
temp file onto `<path>.n`, rename the metadata temp file onto
`<path>.meta`.  `readMeta` is the (deserialized) result of the
`tokio::fs::read` at the head of the function; per-key published state
is an optional `.meta` document plus the set of `.n` blob files. -/

/-- Rust `Intermediate` (src/dir.rs:118). -/
structure Intermediate where
  content_length : Nat
  content_md5_base64 : List Nat

/-- Rust `FileVersion` (src/dir.rs:206). -/
structure FileVersion where
  modified : Nat
  content_length : Nat
  content_md5_base64 : List Nat
  meta : List (String × String)
  tombstone : Bool

/-- Rust `FileMeta` (src/dir.rs:182). -/
structure FileMeta where
  key : List Nat
  versions : List FileVersion

/-- A published mutation of one key's on-disk state. -/
inductive FsOp where
  | writeMetaTemp (m : FileMeta)
  | persistBlob (n : Nat)
  | persistMeta (m : FileMeta)

/-- The published on-disk state of one key: the deserialized `.meta`
document, if present, and the version numbers whose `.n` blob file
exists. -/
structure KeyFs where
  metaFile : Option FileMeta
  blobs : List Nat

/-- Effect of one operation on the published state (the metadata temp
file is invisible until its rename). -/
def applyOp (s : KeyFs) : FsOp → KeyFs
  | .writeMetaTemp _ => s
  | .persistBlob n => { s with blobs := n :: s.blobs }
  | .persistMeta m => { s with metaFile := some m }

/-- All states traversed while running a list of operations, the
initial and final ones included. -/
def statesFrom (s : KeyFs) : List FsOp → List KeyFs
  | [] => [s]
  | op :: ops => s :: statesFrom (applyOp s op) ops

/-- Every non-tombstone version the published `.meta` document
references has its `.n` blob on disk. -/
def MetaBacked (s : KeyFs) : Prop :=
  ∀ m, s.metaFile = some m → ∀ i v, m.versions[i]? = some v →
    v.tombstone = false → i ∈ s.blobs

/-- Rust `write_new_version` (src/dir.rs:48-90) as its mutation trace:
load-or-synthesize the document, append the new `FileVersion`,
serialize it to a temp file, `temp.persist(<path>.n)`, then
`meta_temp.persist(<path>.meta)`. -/
def write_new_version (key : List Nat) (now : Nat)
    (meta : List (String × String)) (intermediate : Intermediate)
    (readMeta : Option FileMeta) : List FsOp :=
  let data := readMeta.getD { key := key, versions := [] }
  let new_version := data.versions.length
  let data : FileMeta := { data with versions := data.versions ++
    [{ modified := now, content_length := intermediate.content_length,
       content_md5_base64 := intermediate.content_md5_base64,
       meta := meta, tombstone := false }] }
  [FsOp.writeMetaTemp data, FsOp.persistBlob new_version, FsOp.persistMeta data]

/-- C1: `write_new_version` publishes the version-`n` blob strictly
before the metadata that references it, and every intermediate state
keeps the `.meta` document fully backed by blobs. -/
theorem write_new_version_commit_order
    (key : List Nat) (now : Nat) (meta : List (String × String))
    (intermediate : Intermediate) (readMeta : Option FileMeta) (s0 : KeyFs)
    (hs0 : MetaBacked s0)
    (hread : ∀ i v, (readMeta.getD { key := key, versions := [] }).versions[i]? =
      some v → v.tombstone = false → i ∈ s0.blobs) :
    ∃ n newMeta,
      write_new_version key now meta intermediate readMeta =
        [FsOp.writeMetaTemp newMeta, FsOp.persistBlob n, FsOp.persistMeta newMeta] ∧
      n = (readMeta.getD { key := key, versions := [] }).versions.length ∧
      newMeta.versions.length = n + 1 ∧
      newMeta.versions[n]? = some
        { modified := now,
          content_length := intermediate.content_length,
          content_md5_base64 := intermediate.content_md5_base64,
          meta := meta, tombstone := false } ∧
      ∀ s ∈ statesFrom s0 (write_new_version key now meta intermediate readMeta),
        MetaBacked s := by
  set old := readMeta.getD { key := key, versions := [] } with hold
  set v : FileVersion :=
    { modified := now,
      content_length := intermediate.content_length,
      content_md5_base64 := intermediate.content_md5_base64,
      meta := meta, tombstone := false } with hv
  set n := old.versions.length with hn
  set newMeta : FileMeta := { old with versions := old.versions ++ [v] } with hnm
  have hops : write_new_version key now meta intermediate readMeta =
      [FsOp.writeMetaTemp newMeta, FsOp.persistBlob n, FsOp.persistMeta newMeta] := rfl
  refine ⟨n, newMeta, hops, rfl, by simp [hnm], ?_, ?_⟩
  · simp [hnm, List.getElem?_append_right, hn]
  · intro s hs
    rw [hops] at hs
    simp only [statesFrom, applyOp, List.mem_cons, List.not_mem_nil, or_false] at hs
    rcases hs with hs | hs | hs | hs
    · exact hs ▸ hs0
    · exact hs ▸ hs0
    · subst hs
      intro m hm i vv hiv htomb
      have := hs0 m hm i vv hiv htomb
      exact List.mem_cons_of_mem _ this
    · subst hs
      intro m hm i vv hiv htomb
      simp only [Option.some.injEq] at hm
      subst hm
      simp only [hnm] at hiv
      by_cases hilt : i < old.versions.length
      · rw [List.getElem?_append_left hilt] at hiv
        exact List.mem_cons_of_mem _ (hread i vv hiv htomb)
      · have hin : i = n := by
          obtain ⟨hlt, -⟩ := List.getElem?_eq_some.mp hiv
          simp only [List.length_append, List.length_singleton] at hlt
          omega
        subst hin
        exact List.mem_cons_self _ _

/-- Witness: the commit-order theorem at a concrete state with no
prior metadata. -/
theorem write_new_version_commit_order_witness :
    ∃ n newMeta,
      write_new_version [107] 5 [] ⟨3, [97]⟩ none =
        [FsOp.writeMetaTemp newMeta, FsOp.persistBlob n, FsOp.persistMeta newMeta] ∧
      n = ((none : Option FileMeta).getD
        { key := [107], versions := [] }).versions.length ∧
      newMeta.versions.length = n + 1 ∧
      newMeta.versions[n]? = some
        { modified := 5, content_length := 3,
          content_md5_base64 := [97], meta := [], tombstone := false } ∧
      ∀ s ∈ statesFrom ⟨none, []⟩ (write_new_version [107] 5 [] ⟨3, [97]⟩ none),
        MetaBacked s :=
  write_new_version_commit_order [107] 5 [] ⟨3, [97]⟩ none ⟨none, []⟩
    (fun m hm => by simp at hm)
    (fun i v hiv => by simp at hiv)

/-! ## `src/temp.rs`: `NamedTempFile::new_in`

`new_in` draws `cand : u64 = rand::random()` once, before the loop,
and each of the 256 iterations pushes the formatted name
`.{cand:x}.tmp` onto `path` without ever popping it.  The filesystem
is a set of file paths and a set of directory paths;
`OpenOptions::new().write(true).create_new(true).open(path)` succeeds
when the path is free and its parent is a directory, reports
`AlreadyExists` when the path is taken, and any other failure (for
example `ENOTDIR` when the parent is a plain file) surfaces as a
non-`AlreadyExists` error, which the loop returns immediately. -/

/-- Rust `format!(".{:x}.tmp", cand)`, lowercase hex. -/
def tmpName (cand : Nat) : String :=
  "." ++ String.mk (Nat.toDigits 16 cand) ++ ".tmp"

/-- Result of an exclusive-create open. -/
inductive OpenResult where
  | ok
  | alreadyExists
  | otherError
deriving DecidableEq

/-- A filesystem: existing files and existing directories, each a list
of path components. -/
structure SimpleFs where
  files : List (List String)
  dirs : List (List String)

/-- Rust `OpenOptions::new().write(true).create_new(true).open(&path)`. -/
def openCreateNew (fs : SimpleFs) (p : List String) : OpenResult :=
  if p ∈ fs.files ∨ p ∈ fs.dirs then .alreadyExists
  else if p.dropLast ∈ fs.dirs then .ok
  else .otherError

/-- Result of `NamedTempFile::new_in`: the created file's path, an
immediate I/O error, or the `"gave up trying to create a temporary
file"` error after 256 `AlreadyExists` results. -/
inductive NewInResult where
  | created (path : List String)
  | ioError
  | gaveUp
deriving DecidableEq

/-- The retry loop of `new_in` (src/temp.rs:42-63): each iteration
pushes the (fixed) candidate name onto the accumulated path and tries
an exclusive create. -/
def new_in_loop (fs : SimpleFs) (name : String) :
    List String → Nat → NewInResult
  | _, 0 => .gaveUp
  | path, k + 1 =>
      let path := path ++ [name]
      match openCreateNew fs path with
      | .ok => .created path
      | .alreadyExists => new_in_loop fs name path k
      | .otherError => .ioError

/-- Rust `NamedTempFile::new_in(dir)` (src/temp.rs:39): the candidate name
is sampled once (`cand` is the value of `rand::random::<u64>()`) and
reused by all 256 iterations. -/
def new_in (fs : SimpleFs) (dir : List String) (cand : Nat) : NewInResult :=
  new_in_loop fs (tmpName cand) dir 256

/-- C4 (refuted): when the directory already contains a file with the
sampled temp name, the second attempt opens
`dir/.{cand:x}.tmp/.{cand:x}.tmp` — nested under the colliding *file* —
and `new_in` fails immediately with a non-`AlreadyExists` I/O error
instead of retrying fresh names in `dir` or counting 256 collisions
toward the temp-exhausted error. -/
theorem new_in_collision_io_error :
    new_in
      { files := [["d", tmpName 0]], dirs := [["d"]] } ["d"] 0 = .ioError ∧
    new_in { files := [], dirs := [["d"]] } ["d"] 0 =
      .created ["d", tmpName 0] := by
  constructor <;> rfl

/-! ## `src/hyper_files.rs`: the streaming codec

The zstd encoder (`zstd::stream::Encoder` over an in-memory cursor) is
abstracted as a state machine: `write` consumes a positive number of
input bytes (the cursor-backed encoder always accepts input), `buf` is
the cursor's pending output, `clearBuf` models `vec.clear()` +
`set_position(0)`, and `finishBuf` the cursor contents after
`enc.finish()`.  The MD5 digest is, as before, an abstract function
`H` applied to the bytes fed so far. -/

/-- Rust `ContentInfo` returned by `stream_pack`. -/
structure ContentInfo where
  length : Nat
  md5_base64 : List Nat
deriving DecidableEq

/-- Abstract zstd stream encoder. -/
structure Encoder (E : Type) where
  write : E → List Nat → Nat × E
  buf : E → List Nat
  clearBuf : E → E
  finishBuf : E → List Nat
  write_consumes : ∀ e d, d ≠ [] → 1 ≤ (write e d).1
  write_le : ∀ e d, (write e d).1 ≤ d.length

/-- The `while !data.is_empty()` drain loop of `stream_pack`
(src/hyper_files.rs:35-47). -/
def packInner {E : Type} (enc : Encoder E) (e : E) (out : List Nat)
    (data : List Nat) : E × List Nat :=
  if h : data = [] then (e, out)
  else
    let w := (enc.write e data).1
    let e1 := (enc.write e data).2
    let data1 := data.drop w
    if (enc.buf e1) ≠ [] then
      packInner enc (enc.clearBuf e1) (out ++ enc.buf e1) data1
    else
      packInner enc e1 out data1
termination_by data.length
decreasing_by
  all_goals
    simp only [List.length_drop]
    have h1 := enc.write_consumes e data h
    have h2 : 0 < data.length := List.length_pos.mpr h
    omega

/-- The chunk loop of `stream_pack` (src/hyper_files.rs:29-54): per
chunk, update the MD5 state with the raw bytes, add the raw length
into the `u64` accumulator, then drain the chunk through the encoder;
at end of stream, flush `enc.finish()` and return the `ContentInfo`.
Returns the info together with the bytes written to `out`. -/
def stream_pack_loop {E : Type} (H : List Nat → List Nat) (enc : Encoder E) :
    E → List Nat → Nat → List Nat → List (List Nat) → ContentInfo × List Nat
  | e, md5st, length, out, [] =>
      ({ length := length, md5_base64 := b64sEncode (H md5st) },
        out ++ enc.finishBuf e)
  | e, md5st, length, out, data :: rest =>
      let md5st := md5st ++ data
      let length := (length + data.length) % 2 ^ 64
      let step := packInner enc e out data
      stream_pack_loop H enc step.1 md5st length step.2 rest

/-- Rust `stream_pack` (src/hyper_files.rs:19). -/
def stream_pack {E : Type} (H : List Nat → List Nat) (enc : Encoder E)
    (e0 : E) (body : List (List Nat)) : ContentInfo × List Nat :=
  stream_pack_loop H enc e0 [] 0 [] body

theorem stream_pack_loop_spec {E : Type} (H : List Nat → List Nat)
    (enc : Encoder E) :
    ∀ (body : List (List Nat)) (e : E) (md5st : List Nat) (length : Nat)
      (out : List Nat), length < 2 ^ 64 →
      (stream_pack_loop H enc e md5st length out body).1 =
        { length := (length + (body.map List.length).sum) % 2 ^ 64,
          md5_base64 := b64sEncode (H (md5st ++ body.flatten)) } := by
  intro body
  induction body with
  | nil =>
      intro e md5st length out hlt
      simp only [stream_pack_loop, List.map_nil, List.sum_nil, Nat.add_zero,
        List.flatten_nil, List.append_nil]
      rw [Nat.mod_eq_of_lt hlt]
  | cons data rest ih =>
      intro e md5st length out hlt
      rw [stream_pack_loop]
      rw [ih _ _ _ _ (Nat.mod_lt _ (by omega))]
      simp only [List.map_cons, List.sum_cons, List.flatten_cons,
        List.append_assoc, ContentInfo.mk.injEq, and_true]
      conv_rhs => rw [← Nat.add_assoc]
      rw [Nat.mod_add_mod]

/-- C2: for every finite chunk sequence whose total length fits in a
`u64`, `stream_pack` reports exactly the total plaintext length and
the base64 of the digest of the concatenated plaintext — independent
of the zstd encoder's behaviour. -/
theorem stream_pack_content_info {E : Type} (H : List Nat → List Nat)
    (enc : Encoder E) (e0 : E) (body : List (List Nat))
    (hlen : (body.map List.length).sum < 2 ^ 64) :
    (stream_pack H enc e0 body).1 =
      { length := (body.map List.length).sum,
        md5_base64 := b64sEncode (H body.flatten) } := by
  rw [stream_pack, stream_pack_loop_spec H enc body e0 [] 0 [] (by omega)]
  simp only [Nat.zero_add, List.nil_append]
  rw [Nat.mod_eq_of_lt hlen]

/-- A concrete encoder (buffers its input verbatim), used to
instantiate the abstract interface. -/
def idEncoder : Encoder (List Nat) where
  write e d := (d.length, e ++ d)
  buf e := e
  clearBuf _ := []
  finishBuf e := e
  write_consumes := fun _ d hd => List.length_pos.mpr hd
  write_le := fun _ _ => le_refl _

/-- Witness: `stream_pack_content_info` at a concrete digest function,
encoder and body. -/
theorem stream_pack_content_info_witness :
    (stream_pack (fun l => l) idEncoder [] [[1, 2], [3]]).1 =
      { length := (([[1, 2], [3]] : List (List Nat)).map List.length).sum,
        md5_base64 :=
          b64sEncode ((fun l => l) ([[1, 2], [3]] : List (List Nat)).flatten) } :=
  stream_pack_content_info (fun l => l) idEncoder [] [[1, 2], [3]] (by decide)

/-! ### `stream_unpack`

The raw zstd decoder (`zstd::stream::raw::Decoder` driven through
`run_on_buffers`) is abstracted as a state machine: `run` returns
`(bytes_read, output, new state)`; it never reads more than it is
given, and a potential function bounds how much output it can still
produce from its state and pending input (each call of the real
decoder emits at most the 16-KiB transfer buffer and a finite frame
yields finitely much output, so such a potential exists). -/

/-- Abstract raw zstd decoder. -/
structure Decoder (D : Type) where
  run : D → List Nat → Nat × List Nat × D
  read_le : ∀ d inp, (run d inp).1 ≤ inp.length
  pot : D → List Nat → Nat
  pot_dec : ∀ d inp, (run d inp).2.1 ≠ [] →
    pot (run d inp).2.2 (inp.drop (run d inp).1) < pot d inp

/-- The inner `loop` of `stream_unpack` (src/hyper_files.rs:72-83):
run the decoder on the buffered input, drain what it read, stop as
soon as it writes nothing, otherwise send the decoded chunk on.
Returns the final decoder state, the input still buffered, and the
chunks sent. -/
def unpackInner {D : Type} (dec : Decoder D) (d : D) (inp : List Nat) :
    D × List Nat × List (List Nat) :=
  let r := dec.run d inp
  let inp1 := inp.drop r.1
  if h : r.2.1 = [] then (r.2.2, inp1, [])
  else
    let next := unpackInner dec r.2.2 inp1
    (next.1, next.2.1, r.2.1 :: next.2.2)
termination_by dec.pot d inp
decreasing_by exact dec.pot_dec d inp h

/-- The outer read loop of `stream_unpack` (src/hyper_files.rs:64-95):
each element of `reads` is one `from.read` result (an empty element is
a zero-byte read, after which the source returns no more data); once a
read returns zero the loop stops after one final drain.  Returns the
decoder state, the pending undecoded input, and the sent chunks. -/
def unpackRun {D : Type} (dec : Decoder D) :
    D → List Nat → List (List Nat) → D × List Nat × List (List Nat)
  | d, inp, [] => unpackInner dec d inp
  | d, inp, c :: rest =>
      let step := unpackInner dec d (inp ++ c)
      if c.length = 0 then step
      else
        let next := unpackRun dec step.1 step.2.1 rest
        (next.1, next.2.1, step.2.2 ++ next.2.2)

/-- Rust `stream_unpack` (src/hyper_files.rs:57): `Ok` with the sent chunks,
or the `UnexpectedEof` error when the reader is exhausted while
undecoded input remains buffered. -/
def stream_unpack {D : Type} (dec : Decoder D) (d : D)
    (reads : List (List Nat)) : Except String (List (List Nat)) :=
  let fin := unpackRun dec d [] reads
  if fin.2.1 = [] then .ok fin.2.2 else .error "UnexpectedEof"

/-- C6: `stream_unpack` succeeds exactly when, at the zero-byte read,
the decoder has no pending undecoded input; whenever input remains
buffered there it fails with `UnexpectedEof`. -/
theorem stream_unpack_eof_behaviour {D : Type} (dec : Decoder D) (d : D)
    (reads : List (List Nat)) :
    ((∃ outs, stream_unpack dec d reads = .ok outs) ↔
      (unpackRun dec d [] reads).2.1 = []) ∧
    ((unpackRun dec d [] reads).2.1 ≠ [] →
      stream_unpack dec d reads = .error "UnexpectedEof") := by
  constructor
  · constructor
    · rintro ⟨outs, houts⟩
      rw [stream_unpack] at houts
      by_cases hp : (unpackRun dec d [] reads).2.1 = []
      · exact hp
      · rw [if_neg hp] at houts
        exact absurd houts (by simp)
    · intro hp
      exact ⟨_, by rw [stream_unpack, if_pos hp]⟩
  · intro hp
    rw [stream_unpack, if_neg hp]

/-- A decoder that decompresses nothing: it consumes all input
verbatim and emits it as output. -/
def idDecoder : Decoder Unit where
  run _ inp := (inp.length, inp, ())
  read_le _ _ := le_refl _
  pot _ inp := inp.length
  pot_dec := fun _ inp hne => by
    simpa using List.length_pos.mpr hne

/-- A decoder that buffers forever: it reads nothing and writes
nothing, so any pending input at end of stream is an
`UnexpectedEof`. -/
def stuckDecoder : Decoder Unit where
  run _ _ := (0, [], ())
  read_le _ _ := Nat.zero_le _
  pot _ _ := 0
  pot_dec := fun _ _ hne => absurd rfl hne

/-- Witness: the end-of-stream behaviour instantiated at a concrete
decoder and read sequence. -/
theorem stream_unpack_eof_behaviour_witness :
    ((∃ outs, stream_unpack stuckDecoder () [[5]] = .ok outs) ↔
      (unpackRun stuckDecoder () [] [[5]]).2.1 = []) ∧
    ((unpackRun stuckDecoder () [] [[5]]).2.1 ≠ [] →
      stream_unpack stuckDecoder () [[5]] = .error "UnexpectedEof") :=
  stream_unpack_eof_behaviour stuckDecoder () [[5]]

/-! ## `src/sig.rs`: the SigV4 validator

Strings are handled at the character level here (the header values are
ASCII in every case the source distinguishes).  The `warheadhateus`
signature computation (`AWSAuth`) is abstracted: `urlValid` models
whether `AWSAuth::new(url)` succeeds (its `expect` panics otherwise)
and `sigOf` computes `war.signature()` from everything `validate` sets
on the builder.  `chrono`'s dates are days-since-epoch arithmetic on
validated `(y, m, d)` triples. -/

/-- A `chrono::NaiveDate`, already validated. -/
structure NaiveDate where
  y : Nat
  m : Nat
  d : Nat
deriving DecidableEq

/-- Gregorian leap year. -/
def isLeapYear (y : Nat) : Bool := y % 4 = 0 && (y % 100 ≠ 0 || y % 400 = 0)

/-- Days in a month. -/
def daysInMonth (y m : Nat) : Nat :=
  if m = 2 then (if isLeapYear y then 29 else 28)
  else if m = 4 ∨ m = 6 ∨ m = 9 ∨ m = 11 then 30
  else 31

/-- Is `(y, m, d)` a real calendar date (what chrono's parser
accepts)? -/
def validYmd (y m d : Nat) : Bool :=
  1 ≤ m && m ≤ 12 && 1 ≤ d && d ≤ daysInMonth y m

/-- Days since 1970-01-01 (civil-from-days, Hinnant's algorithm);
`chrono`'s `signed_duration_since(..).num_days()` between two dates is
the difference of these numbers. -/
def toDayNumber (dt : NaiveDate) : Int :=
  let y : Int := if dt.m ≤ 2 then (dt.y : Int) - 1 else (dt.y : Int)
  let era : Int := Int.fdiv y 400
  let yoe : Int := y - era * 400
  let mp : Int := ((dt.m + 9) % 12 : Nat)
  let doy : Int := Int.fdiv (153 * mp + 2) 5 + (dt.d : Int) - 1
  let doe : Int := yoe * 365 + Int.fdiv yoe 4 - Int.fdiv yoe 100 + doy
  era * 146097 + doe - 719468

/-- The Unix epoch is day zero and days count as expected. -/
example : toDayNumber ⟨1970, 1, 1⟩ = 0 := by decide

example : toDayNumber ⟨2020, 1, 7⟩ - toDayNumber ⟨2020, 1, 4⟩ = 3 := by decide

example : toDayNumber ⟨2020, 3, 1⟩ - toDayNumber ⟨2020, 2, 28⟩ = 2 := by decide

example : toDayNumber ⟨2021, 3, 1⟩ - toDayNumber ⟨2021, 2, 28⟩ = 1 := by decide

/-- Decimal value of an ASCII digit. -/
def digitVal (c : Char) : Option Nat :=
  if c.isDigit then some (c.toNat - 48) else none

/-- Value of a fixed-width decimal digit string; `none` when any
character is not a digit. -/
def parseDigits (cs : List Char) : Option Nat :=
  cs.foldl
    (fun acc c =>
      match acc, digitVal c with
      | some a, some v => some (10 * a + v)
      | _, _ => none)
    (some 0)

/-- Rust `NaiveDateTime::parse_from_str(date, "%Y%m%dT%H%M%SZ")` on the
`x-amz-date` header value. -/
def parseAmzDate (s : String) : Option (NaiveDate × Nat × Nat × Nat) :=
  let cs := s.data
  if cs.length = 16 then
    match parseDigits (cs.take 4), parseDigits ((cs.drop 4).take 2),
        parseDigits ((cs.drop 6).take 2), parseDigits ((cs.drop 9).take 2),
        parseDigits ((cs.drop 11).take 2), parseDigits ((cs.drop 13).take 2) with
    | some y, some mo, some dd, some hh, some mi, some ss =>
        if cs[8]? = some 'T' ∧ cs[15]? = some 'Z' ∧ validYmd y mo dd ∧
            hh ≤ 23 ∧ mi ≤ 59 ∧ ss ≤ 59 then
          some (⟨y, mo, dd⟩, hh, mi, ss)
        else none
    | _, _, _, _, _, _ => none
  else none

/-- Rust `[^/ ,=]`, the character class of the credential-scope groups in
`HEADER_REGEX`. -/
def isClassChar (c : Char) : Bool :=
  c ≠ '/' && c ≠ ' ' && c ≠ ',' && c ≠ '='

/-- Rust `[a-f0-9]`. -/
def isHexLower (c : Char) : Bool := c.isDigit || ('a' ≤ c && c ≤ 'f')

/-- Require a literal prefix and return the rest. -/
def stripPrefixChars (pre cs : List Char) : Option (List Char) :=
  if pre <+: cs then some (cs.drop pre.length) else none

/-- Rust `captures[5].split(';')`. -/
def splitSemis : List Char → List (List Char)
  | [] => [[]]
  | c :: rest =>
      if c = ';' then [] :: splitSemis rest
      else
        match splitSemis rest with
        | g :: gs => (c :: g) :: gs
        | [] => [[c]]

/-- Rust `AuthHeaderFields` (src/sig.rs:136). -/
structure AuthHeaderFields where
  access_key : String
  valid_date : NaiveDate
  region : String
  service : String
  signed_headers : List String
  signature : String
deriving DecidableEq

/-- Rust `NaiveDate::parse_from_str(&captures[2], "%Y%m%d")` on the eight
digits of the credential scope. -/
def parseYmd8 (dcs : List Char) : Option NaiveDate :=
  match parseDigits (dcs.take 4), parseDigits ((dcs.drop 4).take 2),
      parseDigits (dcs.drop 6) with
  | some y, some mo, some dd =>
      if validYmd y mo dd then some ⟨y, mo, dd⟩ else none
  | _, _, _ => none

/-- Rust `split_auth` (src/sig.rs:122): the anchored `HEADER_REGEX` match,
written as a deterministic parser (every group's character class
excludes the delimiter that follows it, so greedy matching is forced).
`none`: the regex does not match (`validate` answers `Invalid`);
`some none`: the regex matched but the eight digits are not a real
date, which makes the `.expect("regex checked date")` panic;
`some (some fields)`: the parsed fields. -/
def split_auth (s : String) : Option (Option AuthHeaderFields) :=
  match stripPrefixChars "Credential=".data s.data with
  | none => none
  | some cs0 =>
    let ak := cs0.takeWhile isClassChar
    if ak.isEmpty then none else
    match stripPrefixChars ['/'] (cs0.drop ak.length) with
    | none => none
    | some cs1 =>
      let dcs := cs1.take 8
      if dcs.length = 8 ∧ dcs.all Char.isDigit then
        match stripPrefixChars ['/'] (cs1.drop 8) with
        | none => none
        | some cs2 =>
          let rg := cs2.takeWhile isClassChar
          if rg.isEmpty then none else
          match stripPrefixChars ['/'] (cs2.drop rg.length) with
          | none => none
          | some cs3 =>
            let sv := cs3.takeWhile isClassChar
            if sv.isEmpty then none else
            match stripPrefixChars "/aws4_request, SignedHeaders=".data
                (cs3.drop sv.length) with
            | none => none
            | some cs4 =>
              let sh := cs4.takeWhile isClassChar
              if sh.isEmpty then none else
              match stripPrefixChars ", Signature=".data (cs4.drop sh.length) with
              | none => none
              | some cs5 =>
                if cs5.length = 64 ∧ cs5.all isHexLower then
                  match parseYmd8 dcs with
                  | some date =>
                      some (some
                        { access_key := String.mk ak, valid_date := date,
                          region := String.mk rg, service := String.mk sv,
                          signed_headers := (splitSemis sh).map String.mk,
                          signature := String.mk cs5 })
                  | none => some none
                else none
      else none

/-- Rust `Validation` (src/sig.rs:19). -/
inductive Validation where
  | Invalid
  | Unsupported
  | Anonymous (headers : List (String × String))
  | Valid (access_key : String) (headers : List (String × String))
deriving DecidableEq

/-- Everything `validate` sets on the `AWSAuth` builder before asking
for the signature. -/
structure SigRequest where
  url : String
  method : String
  payload_hash : String
  date : NaiveDate × Nat × Nat × Nat
  access_key : String
  secret_key : String
  region : String
  headers : List (String × String)

/-- Rust `HashMap::get`. -/
def lookupHeader (hs : List (String × String)) (k : String) : Option String :=
  (hs.find? fun p => p.1 = k).map Prod.snd

/-- The `for header in parts.signed_headers` loop
(src/sig.rs:93-101): remove each signed header from the map, add it to
the builder and the clean map; a missing header is `Invalid`
(`none`). -/
def collectSigned (headers : List (String × String))
    (clean : List (String × String)) :
    List String → Option (List (String × String))
  | [] => some clean
  | h :: rest =>
      match lookupHeader headers h with
      | none => none
      | some v =>
          collectSigned (headers.eraseP fun p => p.1 = h)
            (clean ++ [(h, v)]) rest

/-- The `parts.signature != war` comparison (src/sig.rs:106). -/
def signaturesDiffer (presented expected : String) : Bool :=
  presented ≠ expected

/-- Rust `validate` (src/sig.rs:26).  `none` models a panic (the
`expect("valid url?")` or the date `expect` inside `split_auth`);
`now` is `now.naive_utc().date()`, the only use of the timestamp
outside the builder. -/
def validate (sigOf : SigRequest → String) (urlValid : String → Bool)
    (url : String) (secret_key : String → String) (now : NaiveDate)
    (headers : List (String × String)) (method : String) :
    Option Validation :=
  match lookupHeader headers "authorization" with
  | none => some (.Anonymous headers)
  | some authorization =>
    let date? := match lookupHeader headers "x-amz-date" with
      | some ds => parseAmzDate ds
      | none => none
    match date? with
    | none => some .Invalid
    | some date =>
      if ¬ ("AWS4-HMAC-SHA256 ".data <+: authorization.data) then
        some .Unsupported
      else
        match split_auth
            (String.mk (authorization.data.drop "AWS4-HMAC-SHA256 ".data.length)) with
        | none => some .Invalid
        | some none => none
        | some (some parts) =>
          if (toDayNumber parts.valid_date - toDayNumber now).natAbs > 2 then
            some .Invalid
          else if parts.region ≠ "us-east-1" ∨ parts.service ≠ "s3" then
            some .Unsupported
          else if ¬ urlValid url then none
          else
            match collectSigned headers [] parts.signed_headers with
            | none => some .Invalid
            | some clean =>
              let war : SigRequest :=
                { url := url, method := method,
                  payload_hash :=
                    "e3b0c44298fc1c149afbf4c8996fb92427ae41e4649b934ca495991b7852b855",
                  date := date, access_key := parts.access_key,
                  secret_key := secret_key parts.access_key,
                  region := "us-east-1", headers := clean }
              if signaturesDiffer parts.signature (sigOf war) then some .Invalid
              else some (.Valid parts.access_key clean)

/-- C5: once the authorization header parses, a credential date more
than two days from `now`'s UTC date makes `validate` answer `Invalid`,
whatever the signature oracle computes — the signature is never
consulted (the result is the same for every `sigOf`). -/
theorem validate_clock_skew
    (sigOf sigOf' : SigRequest → String) (urlValid : String → Bool)
    (url : String) (secret_key : String → String) (now : NaiveDate)
    (headers : List (String × String)) (method : String)
    (auth : String) (hauth : lookupHeader headers "authorization" = some auth)
    (ds : String) (hds : lookupHeader headers "x-amz-date" = some ds)
    (dt : NaiveDate × Nat × Nat × Nat) (hdt : parseAmzDate ds = some dt)
    (hpre : "AWS4-HMAC-SHA256 ".data <+: auth.data)
    (parts : AuthHeaderFields)
    (hparts : split_auth
      (String.mk (auth.data.drop "AWS4-HMAC-SHA256 ".data.length)) =
      some (some parts))
    (hskew : (toDayNumber parts.valid_date - toDayNumber now).natAbs > 2) :
    validate sigOf urlValid url secret_key now headers method = some .Invalid ∧
    validate sigOf urlValid url secret_key now headers method =
      validate sigOf' urlValid url secret_key now headers method := by
  have hv : ∀ s : SigRequest → String,
      validate s urlValid url secret_key now headers method = some .Invalid := by
    intro s
    simp only [validate, hauth, hds, hdt, hparts]
    rw [if_neg (not_not_intro hpre), if_pos hskew]
  exact ⟨hv sigOf, by rw [hv sigOf, hv sigOf']⟩

/-- Witness: `validate_clock_skew` on a concrete request whose
credential date is three days after `now`. -/
theorem validate_clock_skew_witness :
    validate (fun _ => "sig") (fun _ => true) "http://localhost:8202/foo-bar"
      (fun _ => "456") ⟨2020, 1, 4⟩
      [("authorization",
        "AWS4-HMAC-SHA256 Credential=AKID/20200107/us-east-1/s3/aws4_request, SignedHeaders=host, Signature="
          ++ String.mk (List.replicate 64 'a')),
       ("x-amz-date", "20200104T204036Z")] "PUT" = some .Invalid ∧
    validate (fun _ => "sig") (fun _ => true) "http://localhost:8202/foo-bar"
      (fun _ => "456") ⟨2020, 1, 4⟩
      [("authorization",
        "AWS4-HMAC-SHA256 Credential=AKID/20200107/us-east-1/s3/aws4_request, SignedHeaders=host, Signature="
          ++ String.mk (List.replicate 64 'a')),
       ("x-amz-date", "20200104T204036Z")] "PUT" =
    validate (fun _ => "other") (fun _ => true) "http://localhost:8202/foo-bar"
      (fun _ => "456") ⟨2020, 1, 4⟩
      [("authorization",
        "AWS4-HMAC-SHA256 Credential=AKID/20200107/us-east-1/s3/aws4_request, SignedHeaders=host, Signature="
          ++ String.mk (List.replicate 64 'a')),
       ("x-amz-date", "20200104T204036Z")] "PUT" :=
  validate_clock_skew (fun _ => "sig") (fun _ => "other") (fun _ => true)
    "http://localhost:8202/foo-bar" (fun _ => "456") ⟨2020, 1, 4⟩
    [("authorization",
      "AWS4-HMAC-SHA256 Credential=AKID/20200107/us-east-1/s3/aws4_request, SignedHeaders=host, Signature="
        ++ String.mk (List.replicate 64 'a')),
     ("x-amz-date", "20200104T204036Z")] "PUT"
    ("AWS4-HMAC-SHA256 Credential=AKID/20200107/us-east-1/s3/aws4_request, SignedHeaders=host, Signature="
      ++ String.mk (List.replicate 64 'a')) (by decide)
    "20200104T204036Z" (by decide)
    (⟨2020, 1, 4⟩, 20, 40, 36) (by decide)
    (by decide)
    { access_key := "AKID", valid_date := ⟨2020, 1, 7⟩,
      region := "us-east-1", service := "s3", signed_headers := ["host"],
      signature := String.mk (List.replicate 64 'a') }
    (by decide) (by decide)

/-- Number of character comparisons a short-circuiting equality scan
performs before answering: it stops at the first mismatch, so the
count is the length of the common prefix plus one (or the whole
length on equal inputs).  This is the timing model of the `!=` used by
`signaturesDiffer` — Rust's `str` equality is a length check plus a
byte scan that exits at the first difference. -/
def eqScanCost : List Char → List Char → Nat
  | a :: as, b :: bs => 1 + (if a = b then eqScanCost as bs else 0)
  | _, _ => 0

/-- C9 (refuted): the signature comparison in `validate` is not
constant-time — two rejected signatures of equal length cost 1 and 64
comparisons depending on how many leading characters agree with the
expected signature. -/
theorem signature_compare_cost_varies :
    signaturesDiffer (String.mk ('b' :: List.replicate 63 'a'))
        (String.mk (List.replicate 64 'a')) = true ∧
    signaturesDiffer (String.mk (List.replicate 63 'a' ++ ['b']))
        (String.mk (List.replicate 64 'a')) = true ∧
    (String.mk ('b' :: List.replicate 63 'a')).length =
      (String.mk (List.replicate 63 'a' ++ ['b'])).length ∧
    eqScanCost ('b' :: List.replicate 63 'a') (List.replicate 64 'a') = 1 ∧
    eqScanCost (List.replicate 63 'a' ++ ['b']) (List.replicate 64 'a') = 64 := by
  refine ⟨by decide, by decide, by decide, by decide, by decide⟩

end Swisher
